import Mathlib

/-!
Verification of the NYT daily digest translation script
(`main_nyt_top5_translated.py`): a shallow embedding of the Section
Fetcher (`get_top_stories`), the Digest Aggregator (the per-subscription
fetch loop in `main`) and the Batch Translation Indexer
(`translate_structured_stories`), together with theorems about the
flattening/reassembly index arithmetic, the retry/backoff policy and the
section-skipping behaviour.
-/

set_option autoImplicit false

namespace NytDigest

/-- A story object as it appears in the script: a Python dict with
optional `title` and `abstract` text fields (read with
`story.get('title', '')` / `story.get('abstract', '')`) and further
fields (`url`, `byline`) that translation passes through untouched. -/
structure Story where
  title : Option String
  abstract : Option String
  url : String
  byline : String
deriving DecidableEq, Repr

/-! ## Humanization of section keys

`key.replace('_', ' ').replace('/', ' & ').title()` from line 62 of the
script.  Both `replace` patterns are single characters, so they act
characterwise; `str.title()` uppercases every cased character that
follows a non-cased character and lowercases the other cased
characters. -/

/-- Python `key.replace('_', ' ')` for the single-character pattern:
every underscore becomes a space. -/
def replaceUnderscore (cs : List Char) : List Char :=
  cs.map (fun c => if c = '_' then ' ' else c)

/-- Python `.replace('/', ' & ')` for the single-character pattern:
every slash becomes the three characters space, ampersand, space. -/
def replaceSlash (cs : List Char) : List Char :=
  cs.flatMap (fun c => if c = '/' then [' ', '&', ' '] else [c])

/-- One step of Python `str.title()`: the accumulator carries the output
so far and whether the previous character was cased (a letter). -/
def titleStep (acc : List Char × Bool) (c : Char) : List Char × Bool :=
  if c.isAlpha then
    (acc.1 ++ [if acc.2 then c.toLower else c.toUpper], true)
  else
    (acc.1 ++ [c], false)

/-- Python `str.title()`. -/
def pyTitle (s : String) : String :=
  String.mk (s.toList.foldl titleStep ([], false)).1

/-- The humanized display form of a section key, line 62 of the script:
`key.replace('_', ' ').replace('/', ' & ').title()`. -/
def humanize (key : String) : String :=
  pyTitle (String.mk (replaceSlash (replaceUnderscore key.toList)))

/-! ## Batch Translation Indexer (`translate_structured_stories`)

The digest mapping (a Python dict cultivated in insertion order) is
embedded as an ordered association list `List (String × List Story)`;
iterating `story_data.keys()` and looking each key up is iterating the
pairs in order.  The translation client is abstracted as a function
`List String → List String` (each response element is the
`translatedText` of the corresponding request element); list indexing
`results[i]` becomes `List.get?`, with `none` modelling the `IndexError`
the script would raise. -/

/-- Lines 60–66 of the script: the flattened translation request — one
humanized key per section in mapping order, then for each section in the
same order and each story in that section's order the two texts
`story.get('title', '')` and `story.get('abstract', '')`.  The function
receives no main title; none is ever placed in the batch. -/
def flattenBatch (story_data : List (String × List Story)) : List String :=
  story_data.map (fun p => humanize p.1) ++
    story_data.flatMap (fun p =>
      p.2.flatMap (fun st => [st.title.getD "", st.abstract.getD ""]))

/-- Python `translated_data[translated_section_title] = translated_stories_list`:
dict assignment keeps the position of an existing key and replaces its
value, and appends a fresh key at the end. -/
def dictInsert {α : Type} (d : List (String × α)) (k : String) (v : α) :
    List (String × α) :=
  if d.any (fun p => p.1 = k) then
    d.map (fun p => if p.1 = k then (k, v) else p)
  else
    d ++ [(k, v)]

/-- Python dict membership/lookup on the embedded association list. -/
def dictFind {α : Type} (d : List (String × α)) (k : String) : Option α :=
  match d with
  | [] => none
  | p :: rest => if p.1 = k then some p.2 else dictFind rest k

/-- The inner reassembly loop, lines 77–84 of the script: for each story
of a section, `results[len(section_keys) + result_index]` becomes the
translated title and `results[len(section_keys) + result_index + 1]` the
translated abstract of a copy of the story, and `result_index` advances
by 2.  Returns the rebuilt story list and the final `result_index`;
`none` is an `IndexError`. -/
def reassembleStories (results : List String) (nKeys : Nat) :
    List Story → Nat → Option (List Story × Nat)
  | [], ri => some ([], ri)
  | st :: rest, ri => do
    let t ← results.get? (nKeys + ri)
    let a ← results.get? (nKeys + ri + 1)
    let (restOut, ri2) ← reassembleStories results nKeys rest (ri + 2)
    return ({ st with title := some t, abstract := some a } :: restOut, ri2)

/-- The outer reassembly loop, lines 72–85 of the script: section `i`
takes its translated title from `results[i]` and its rebuilt story list
from the inner loop, and the pair is stored in the output dict.  `i` is
the running `enumerate` index and `ri` the running `result_index`. -/
def reassembleAux (results : List String) (nKeys : Nat) :
    List (String × List Story) → Nat → Nat → List (String × List Story) →
      Option (List (String × List Story))
  | [], _, _, acc => some acc
  | (_, stories) :: rest, i, ri, acc => do
    let tst ← results.get? i
    let (tlist, ri2) ← reassembleStories results nKeys stories ri
    reassembleAux results nKeys rest (i + 1) ri2 (dictInsert acc tst tlist)

/-- Lines 56–87 of the script, `translate_structured_stories`, with the
translation client abstracted as `translator`.  An empty batch returns
the empty dict without calling the service; otherwise the response is
reassembled by index arithmetic, `none` standing for the `IndexError`
raised when an index reaches past the end of the response. -/
def translate_structured_stories
    (translator : List String → List String)
    (story_data : List (String × List Story)) :
    Option (List (String × List Story)) :=
  let texts := flattenBatch story_data
  if texts.isEmpty then some []
  else
    reassembleAux (translator texts) story_data.length story_data 0 0 []

/-! ## Section Fetcher (`get_top_stories`)

One network attempt is abstracted as an `AttemptResult`; the environment
`env : Nat → AttemptResult` gives the outcome of attempt number `a`
(0-based).  The fetcher makes up to `maxRetries = 3` attempts and its
observable behaviour is the returned value or raised error, the number
of attempts actually made, and the list of `time.sleep` delays. -/

/-- Outcome of one `requests.get` attempt: a 2xx response with parsed
JSON `status` and `results`, an HTTP error status (raised by
`raise_for_status`), or a transport-level `RequestException`. -/
inductive AttemptResult where
  | ok (status : String) (results : List Story)
  | httpErr (code : Nat)
  | transportErr
deriving DecidableEq, Repr

/-- An error raised by `get_top_stories`: the re-raised `HTTPError` for
a non-429 status, or the `ConnectionError` wrapping a transport
failure. -/
inductive FetchErr where
  | httpError (code : Nat)
  | connectionError
deriving DecidableEq, Repr

instance {ε α : Type} [DecidableEq ε] [DecidableEq α] :
    DecidableEq (Except ε α) := fun a b =>
  match a, b with
  | .ok x, .ok y =>
    if h : x = y then .isTrue (by rw [h]) else .isFalse (by simp [h])
  | .error x, .error y =>
    if h : x = y then .isTrue (by rw [h]) else .isFalse (by simp [h])
  | .ok _, .error _ => .isFalse (by simp)
  | .error _, .ok _ => .isFalse (by simp)

/-- Observable result of one `get_top_stories` call: the returned story
list or raised error, the number of attempts made, and the sleep delays
in seconds. -/
structure FetchResult where
  outcome : Except FetchErr (List Story)
  attempts : Nat
  delays : List Nat
deriving DecidableEq, Repr

/-- Constant `max_retries` at line 33 of the script. -/
def maxRetries : Nat := 3

/-- Constant `base_delay` at line 33 of the script. -/
def baseDelay : Nat := 5

/-- The retry loop of `get_top_stories`, lines 34–54: `a` is the Python
loop variable `attempt` and `remaining` the number of loop iterations
left (`max_retries - attempt`).  A 2xx response returns
`results[:limit]` when `status == 'OK'` and `results` is truthy, else
`[]`; a 429 waits `base_delay * 2**attempt` and retries unless this was
the last attempt, in which case it returns `[]`; any other HTTP error is
re-raised; a transport failure raises `ConnectionError`. -/
def getTopStoriesFrom (env : Nat → AttemptResult) (limit : Nat) :
    Nat → Nat → FetchResult
  | 0, _ => ⟨.ok [], 0, []⟩
  | remaining + 1, a =>
    match env a with
    | .ok status results =>
      if status = "OK" ∧ results ≠ [] then
        ⟨.ok (results.take limit), 1, []⟩
      else
        ⟨.ok [], 1, []⟩
    | .httpErr code =>
      if code = 429 then
        if a < maxRetries - 1 then
          let rest := getTopStoriesFrom env limit remaining (a + 1)
          ⟨rest.outcome, rest.attempts + 1, baseDelay * 2 ^ a :: rest.delays⟩
        else
          ⟨.ok [], 1, []⟩
      else
        ⟨.error (.httpError code), 1, []⟩
    | .transportErr => ⟨.error .connectionError, 1, []⟩

/-- Function `get_top_stories(api_key, section, limit)` for a given attempt
environment: the loop starts at attempt 0 with `max_retries` iterations
available. -/
def getTopStories (env : Nat → AttemptResult) (limit : Nat) : FetchResult :=
  getTopStoriesFrom env limit maxRetries 0

/-! ## Digest Aggregator (the fetch loop of `main`, lines 172–186)

`fetch` abstracts what `get_top_stories` returns for each section on
the run's non-raising path.  The loop body stores a non-empty story list
under the section key and always sleeps 7 seconds. -/

/-- Lines 172–179 of the script: builds `all_stories_by_section` and
records every politeness delay.  Each iteration inserts the fetched
stories only when the list is truthy and then executes `time.sleep(7)`
unconditionally. -/
def mainFetchLoop (fetch : String → List Story) (sects : List String) :
    List (String × List Story) × List Nat :=
  sects.foldl
    (fun acc s =>
      let stories := fetch s
      ((if stories.isEmpty then acc.1 else dictInsert acc.1 s stories),
        acc.2 ++ [7]))
    ([], [])

/-- Lines 172–186 of the script: the per-subscription pipeline up to the
Indexer.  When the aggregated mapping is empty the digest is skipped
(`continue`) and `translate_structured_stories` is never called; `none`
models the skip. -/
def processDigest (fetch : String → List Story)
    (translator : List String → List String) (sects : List String) :
    Option (Option (List (String × List Story))) :=
  let digest := (mainFetchLoop fetch sects).1
  if digest.isEmpty then none
  else some (translate_structured_stories translator digest)

end NytDigest

namespace NytDigest

/-! ## Shared concrete inputs for witnesses and counterexamples -/

/-- A sample story used in concrete instances. -/
def exStory : Story := ⟨some "A", some "B", "u", "b"⟩

/-- A second sample story used in concrete instances. -/
def exStory2 : Story := ⟨some "C", some "D", "u2", "b2"⟩

/-! ## Helper lemmas about the aggregator loop -/

/-- The loop body of `mainFetchLoop` as a named step function. -/
def fetchStep (fetch : String → List Story)
    (acc : List (String × List Story) × List Nat) (s : String) :
    List (String × List Story) × List Nat :=
  let stories := fetch s
  ((if stories.isEmpty then acc.1 else dictInsert acc.1 s stories),
    acc.2 ++ [7])

theorem mainFetchLoop_eq_foldl (fetch : String → List Story)
    (sects : List String) :
    mainFetchLoop fetch sects = sects.foldl (fetchStep fetch) ([], []) := rfl

theorem foldl_fetchStep_delays (fetch : String → List Story) :
    ∀ (sects : List String) (acc : List (String × List Story) × List Nat),
      (sects.foldl (fetchStep fetch) acc).2 =
        acc.2 ++ List.replicate sects.length 7 := by
  intro sects
  induction sects with
  | nil => intro acc; simp
  | cons s rest ih =>
    intro acc
    simp only [List.foldl_cons, ih, List.length_cons]
    simp [fetchStep, List.replicate_succ, List.append_assoc]


/-! ## Claims C5, C7, C9: the Section Fetcher -/

/-- Claim C5: a section fetch that is rate-limited (HTTP 429) on every
attempt makes exactly 3 attempts, sleeps 5 seconds after the first and
10 after the second (and nothing after the third), and returns an empty
story list rather than raising an error. -/
theorem fetch_rate_limited_three_attempts (env : Nat → AttemptResult)
    (limit : Nat) (h0 : env 0 = .httpErr 429) (h1 : env 1 = .httpErr 429)
    (h2 : env 2 = .httpErr 429) :
    getTopStories env limit = ⟨.ok [], 3, [5, 10]⟩ := by
  simp [getTopStories, getTopStoriesFrom, h0, h1, h2, maxRetries, baseDelay]

/-- Witness for C5: the all-429 environment. -/
theorem fetch_rate_limited_three_attempts_witness :
    getTopStories (fun _ => .httpErr 429) 5 = ⟨.ok [], 3, [5, 10]⟩ :=
  fetch_rate_limited_three_attempts (fun _ => .httpErr 429) 5 rfl rfl rfl

/-- Claim C7: on any attempt, a non-429 HTTP error status is re-raised
immediately with no retry and no wait, and a transport-level failure is
raised as a `ConnectionError` with no retry and no wait.  The first two
conjuncts state this for a whole `get_top_stories` call whose first
attempt fails that way; the last two state it for an arbitrary attempt
`a` reached with at least one loop iteration remaining. -/
theorem fetch_fatal_errors_not_retried (env : Nat → AttemptResult)
    (limit code : Nat) :
    (env 0 = .httpErr code → code ≠ 429 →
      getTopStories env limit = ⟨.error (.httpError code), 1, []⟩) ∧
    (env 0 = .transportErr →
      getTopStories env limit = ⟨.error .connectionError, 1, []⟩) ∧
    (∀ a r, env a = .httpErr code → code ≠ 429 →
      getTopStoriesFrom env limit (r + 1) a =
        ⟨.error (.httpError code), 1, []⟩) ∧
    (∀ a r, env a = .transportErr →
      getTopStoriesFrom env limit (r + 1) a =
        ⟨.error .connectionError, 1, []⟩) := by
  refine ⟨?_, ?_, ?_, ?_⟩
  · intro h hne
    simp [getTopStories, getTopStoriesFrom, maxRetries, h, hne]
  · intro h
    simp [getTopStories, getTopStoriesFrom, maxRetries, h]
  · intro a r h hne
    simp [getTopStoriesFrom, h, hne]
  · intro a r h
    simp [getTopStoriesFrom, h]

/-- Witness for C7: a 500 response and a transport failure, each on the
first attempt. -/
theorem fetch_fatal_errors_not_retried_witness :
    getTopStories (fun _ => .httpErr 500) 5 =
      ⟨.error (.httpError 500), 1, []⟩ ∧
    getTopStories (fun _ => .transportErr) 5 =
      ⟨.error .connectionError, 1, []⟩ :=
  ⟨(fetch_fatal_errors_not_retried (fun _ => .httpErr 500) 5 500).1
      rfl (by decide),
   (fetch_fatal_errors_not_retried (fun _ => .transportErr) 5 0).2.1 rfl⟩

/-- Claim C9: a first attempt answering status `"OK"` returns the first
`limit` results in their original order (exactly `limit` of them when at
least `limit` are present), and an `"OK"` answer with no results returns
the empty list without error. -/
theorem fetch_ok_truncates (env : Nat → AttemptResult) (limit : Nat)
    (rs : List Story) :
    (env 0 = .ok "OK" rs → limit ≤ rs.length →
      getTopStories env limit = ⟨.ok (rs.take limit), 1, []⟩) ∧
    (env 0 = .ok "OK" [] → getTopStories env limit = ⟨.ok [], 1, []⟩) := by
  constructor
  · intro h hlen
    cases rs with
    | nil =>
      have : limit = 0 := Nat.le_zero.mp hlen
      simp [getTopStories, getTopStoriesFrom, maxRetries, h, this]
    | cons r rest =>
      simp [getTopStories, getTopStoriesFrom, maxRetries, h]
  · intro h
    simp [getTopStories, getTopStoriesFrom, maxRetries, h]

/-- Witness for C9: eight results and a limit of five give exactly the
first five. -/
theorem fetch_ok_truncates_witness :
    getTopStories (fun _ => .ok "OK" (List.replicate 8 exStory)) 5 =
      ⟨.ok (List.replicate 5 exStory), 1, []⟩ := by
  have h := (fetch_ok_truncates (fun _ => .ok "OK" (List.replicate 8 exStory))
    5 (List.replicate 8 exStory)).1 rfl (by simp)
  simpa using h

/-! ## Claim C6: the politeness delay -/

/-- Counterexample to C6: with a single configured section the script
still sleeps once (`time.sleep(7)` runs unconditionally at the end of
every loop iteration), whereas the claim demands `N - 1 = 0` delays. -/
theorem politeness_delay_counterexample :
    (mainFetchLoop (fun _ => [exStory]) ["world"]).2 = [7] ∧
    ([7] : List Nat).length ≠ List.length ["world"] - 1 := by
  constructor
  · rfl
  · decide

/-- Claim C6 amended: the aggregator waits the politeness delay of 7
time units after every section fetch, including the final one — exactly
`N` delays for `N` sections, not `N - 1`. -/
theorem politeness_delay_after_every_section (fetch : String → List Story)
    (sects : List String) :
    (mainFetchLoop fetch sects).2 = List.replicate sects.length 7 := by
  rw [mainFetchLoop_eq_foldl]
  simpa using foldl_fetchStep_delays fetch sects ([], [])


/-! ## Claim C8: empty sections are omitted and an empty digest skips
the Indexer -/

theorem dictFind_map_overwrite {α : Type} (k s : String) (v : α)
    (h : k ≠ s) :
    ∀ d : List (String × α),
      dictFind (d.map (fun p => if p.1 = k then (k, v) else p)) s =
        dictFind d s := by
  intro d
  induction d with
  | nil => rfl
  | cons p rest ih =>
    by_cases hpk : p.1 = k
    · simp [dictFind, hpk, h, ih]
    · simp [dictFind, hpk, ih]

theorem dictFind_append_single {α : Type} (k s : String) (v : α)
    (h : k ≠ s) :
    ∀ d : List (String × α), dictFind (d ++ [(k, v)]) s = dictFind d s := by
  intro d
  induction d with
  | nil => simp [dictFind, h]
  | cons p rest ih => simp [dictFind, ih]

theorem dictFind_dictInsert_ne {α : Type} (d : List (String × α))
    (k s : String) (v : α) (h : k ≠ s) :
    dictFind (dictInsert d k v) s = dictFind d s := by
  unfold dictInsert
  split
  · exact dictFind_map_overwrite k s v h d
  · exact dictFind_append_single k s v h d

theorem foldl_fetchStep_preserves_none (fetch : String → List Story)
    (s : String) (hs : fetch s = []) :
    ∀ (sects : List String) (acc : List (String × List Story) × List Nat),
      dictFind acc.1 s = none →
      dictFind ((sects.foldl (fetchStep fetch) acc).1) s = none := by
  intro sects
  induction sects with
  | nil => intro acc hacc; exact hacc
  | cons s2 rest ih =>
    intro acc hacc
    rw [List.foldl_cons]
    apply ih
    show dictFind (fetchStep fetch acc s2).1 s = none
    unfold fetchStep
    by_cases he : (fetch s2).isEmpty
    · simpa [he] using hacc
    · have hne : s2 ≠ s := by
        intro hco
        rw [hco, hs] at he
        exact he rfl
      simpa [he, dictFind_dictInsert_ne _ _ _ _ hne] using hacc

theorem foldl_fetchStep_all_empty (fetch : String → List Story) :
    ∀ (sects : List String), (∀ s, s ∈ sects → fetch s = []) →
      ∀ acc : List (String × List Story) × List Nat,
        ((sects.foldl (fetchStep fetch) acc).1) = acc.1 := by
  intro sects
  induction sects with
  | nil => intro _ acc; rfl
  | cons s2 rest ih =>
    intro hall acc
    rw [List.foldl_cons]
    rw [ih (fun s hmem => hall s (List.mem_cons_of_mem _ hmem))]
    unfold fetchStep
    simp [hall s2 (List.mem_cons_self _ _)]

/-- Claim C8: a section whose fetch comes back empty is never inserted
into the aggregated mapping, and when every section comes back empty the
digest mapping is empty and the subscription is skipped (`none`) without
the Indexer running. -/
theorem aggregator_omits_empty_sections (fetch : String → List Story)
    (translator : List String → List String) (sects : List String) :
    (∀ s, s ∈ sects → fetch s = [] →
      dictFind (mainFetchLoop fetch sects).1 s = none) ∧
    ((∀ s, s ∈ sects → fetch s = []) →
      (mainFetchLoop fetch sects).1 = [] ∧
        processDigest fetch translator sects = none) := by
  constructor
  · intro s _ hs
    rw [mainFetchLoop_eq_foldl]
    exact foldl_fetchStep_preserves_none fetch s hs sects ([], []) rfl
  · intro hall
    have hmain : (mainFetchLoop fetch sects).1 = [] := by
      rw [mainFetchLoop_eq_foldl]
      exact foldl_fetchStep_all_empty fetch sects hall ([], [])
    refine ⟨hmain, ?_⟩
    unfold processDigest
    simp [hmain]

/-- Witness for C8: section `"b"` fetches no stories and is absent from
the mapping; a subscription where both sections fetch nothing is
skipped. -/
theorem aggregator_omits_empty_sections_witness :
    dictFind (mainFetchLoop
      (fun s => if s = "b" then [] else [exStory]) ["a", "b"]).1 "b" =
        none ∧
    processDigest (fun _ => []) (fun l => l) ["a", "b"] = none :=
  ⟨(aggregator_omits_empty_sections
      (fun s => if s = "b" then [] else [exStory]) (fun l => l)
      ["a", "b"]).1 "b" (by decide) (by decide),
   ((aggregator_omits_empty_sections (fun _ => []) (fun l => l)
      ["a", "b"]).2 (fun s _ => rfl)).2⟩


/-! ## Index arithmetic of the flattened batch -/

/-- Total number of stories in the digest mapping. -/
def totalStories (d : List (String × List Story)) : Nat :=
  (d.map (fun p => p.2.length)).sum

/-- Number of stories in the sections strictly before section `i`. -/
def storiesBefore (d : List (String × List Story)) (i : Nat) : Nat :=
  totalStories (d.take i)

theorem totalStories_cons (p : String × List Story)
    (d : List (String × List Story)) :
    totalStories (p :: d) = p.2.length + totalStories d := by
  simp [totalStories]

theorem storiesBefore_zero (d : List (String × List Story)) :
    storiesBefore d 0 = 0 := by
  simp [storiesBefore, totalStories]

theorem storiesBefore_cons_succ (q : String × List Story)
    (rest : List (String × List Story)) (i : Nat) :
    storiesBefore (q :: rest) (i + 1) = q.2.length + storiesBefore rest i := by
  simp [storiesBefore, totalStories]

theorem storiesBefore_append (pre suf : List (String × List Story)) :
    storiesBefore (pre ++ suf) pre.length = totalStories pre := by
  simp [storiesBefore, List.take_left]

theorem length_storyTexts (sts : List Story) :
    (sts.flatMap (fun st => [st.title.getD "", st.abstract.getD ""])).length =
      2 * sts.length := by
  induction sts with
  | nil => rfl
  | cons st rest ih => simp [ih]; omega

/-- Claim C1's length law as it actually holds: the flattened batch has
`N + 2 * sum(c_i)` items — no extra main-title item. -/
theorem length_flattenBatch (d : List (String × List Story)) :
    (flattenBatch d).length = d.length + 2 * totalStories d := by
  unfold flattenBatch
  rw [List.length_append, List.length_map]
  congr 1
  induction d with
  | nil => rfl
  | cons p rest ih =>
    rw [List.flatMap_cons, List.length_append, ih, length_storyTexts,
      totalStories_cons]
    omega

/-- Item `i` of the flattened batch, for `i < N`, is the humanized key
of section `i`. -/
theorem flattenBatch_key (d : List (String × List Story)) (i : Nat)
    (p : String × List Story) (h : d[i]? = some p) :
    (flattenBatch d)[i]? = some (humanize p.1) := by
  have hi : i < d.length := (List.getElem?_eq_some.mp h).1
  unfold flattenBatch
  rw [List.getElem?_append_left (by simpa using hi), List.getElem?_map, h]
  rfl

theorem storyTexts_getElem (sts : List Story) :
    ∀ (j : Nat) (st : Story), sts[j]? = some st →
      (sts.flatMap (fun s => [s.title.getD "", s.abstract.getD ""]))[2 * j]? =
          some (st.title.getD "") ∧
        (sts.flatMap
            (fun s => [s.title.getD "", s.abstract.getD ""]))[2 * j + 1]? =
          some (st.abstract.getD "") := by
  induction sts with
  | nil => intro j st h; simp at h
  | cons s rest ih =>
    intro j st h
    cases j with
    | zero =>
      rw [List.getElem?_cons_zero] at h
      cases h
      constructor
      · simp
      · simp
    | succ j2 =>
      rw [List.getElem?_cons_succ] at h
      have hrec := ih j2 st h
      have e1 : (2 : Nat) * (j2 + 1) = 2 * j2 + 1 + 1 := by omega
      have e2 : (2 : Nat) * (j2 + 1) + 1 = 2 * j2 + 1 + 1 + 1 := by omega
      constructor
      · rw [List.flatMap_cons]
        simp only [List.cons_append, List.nil_append]
        rw [e1, List.getElem?_cons_succ, List.getElem?_cons_succ]
        exact hrec.1
      · rw [List.flatMap_cons]
        simp only [List.cons_append, List.nil_append]
        rw [e2, List.getElem?_cons_succ, List.getElem?_cons_succ]
        exact hrec.2

theorem storyRegion_getElem (d : List (String × List Story)) :
    ∀ (i : Nat) (p : String × List Story), d[i]? = some p →
      ∀ m : Nat, m < 2 * p.2.length →
        (d.flatMap (fun q =>
            q.2.flatMap
              (fun s => [s.title.getD "", s.abstract.getD ""])))[2 *
                  storiesBefore d i + m]? =
          (p.2.flatMap (fun s => [s.title.getD "", s.abstract.getD ""]))[m]? := by
  induction d with
  | nil => intro i p h; simp at h
  | cons q rest ih =>
    intro i p h m hm
    cases i with
    | zero =>
      rw [List.getElem?_cons_zero] at h
      cases h
      rw [storiesBefore_zero, List.flatMap_cons]
      simpa using
        List.getElem?_append_left (by rw [length_storyTexts]; omega)
    | succ i2 =>
      rw [List.getElem?_cons_succ] at h
      rw [storiesBefore_cons_succ, List.flatMap_cons]
      have e1 : 2 * (q.2.length + storiesBefore rest i2) + m =
          (q.2.flatMap
            (fun s => [s.title.getD "", s.abstract.getD ""])).length +
            (2 * storiesBefore rest i2 + m) := by
        rw [length_storyTexts]; omega
      rw [e1, List.getElem?_append_right (by omega)]
      have e2 : (q.2.flatMap
          (fun s => [s.title.getD "", s.abstract.getD ""])).length +
            (2 * storiesBefore rest i2 + m) -
          (q.2.flatMap
            (fun s => [s.title.getD "", s.abstract.getD ""])).length =
          2 * storiesBefore rest i2 + m := by omega
      rw [e2]
      exact ih i2 p h m hm

/-- Items `N + 2 * storiesBefore d i + 2 * j` and the following one of
the flattened batch are the title and abstract texts of story `j` of
section `i`. -/
theorem flattenBatch_story (d : List (String × List Story)) (i : Nat)
    (p : String × List Story) (j : Nat) (st : Story)
    (hd : d[i]? = some p) (hs : p.2[j]? = some st) :
    (flattenBatch d)[d.length + 2 * storiesBefore d i + 2 * j]? =
        some (st.title.getD "") ∧
      (flattenBatch d)[d.length + 2 * storiesBefore d i + 2 * j + 1]? =
        some (st.abstract.getD "") := by
  have hj : j < p.2.length := (List.getElem?_eq_some.mp hs).1
  have hpair := storyTexts_getElem p.2 j st hs
  unfold flattenBatch
  have hlenmap : (d.map (fun p => humanize p.1)).length = d.length := by simp
  constructor
  · rw [List.getElem?_append_right (by omega)]
    rw [hlenmap]
    have e : d.length + 2 * storiesBefore d i + 2 * j - d.length =
        2 * storiesBefore d i + 2 * j := by omega
    rw [e, storyRegion_getElem d i p hd (2 * j) (by omega)]
    exact hpair.1
  · rw [List.getElem?_append_right (by omega)]
    rw [hlenmap]
    have e : d.length + 2 * storiesBefore d i + 2 * j + 1 - d.length =
        2 * storiesBefore d i + (2 * j + 1) := by omega
    rw [e, storyRegion_getElem d i p hd (2 * j + 1) (by omega)]
    exact hpair.2


/-! ## Spec-side reassembly and its agreement with the code

`specStories`/`specSections` restate §4.3's reassembly description with
the index origins the code actually uses (section `i` keyed by
`response[i]`, story cursor starting at `N`): direct index arithmetic
instead of the code's mutable cursor and dict assignment.  The
refinement theorems below show the code's loops compute exactly this
whenever the response is long enough and the translated section titles
collide neither with each other nor with earlier keys. -/

/-- Spec-side reassembly of one section's story list: story `k` of a
section whose cursor starts at `ri` takes its title from
`response[nKeys + ri + 2k]` and its abstract from the next item. -/
def specStories (results : List String) (nKeys : Nat) :
    List Story → Nat → List Story
  | [], _ => []
  | st :: rest, ri =>
    { st with title := some (results.getD (nKeys + ri) ""),
              abstract := some (results.getD (nKeys + ri + 1) "") } ::
      specStories results nKeys rest (ri + 2)

/-- Spec-side reassembly of the sections: the section at enumerate index
`i` is keyed by `response[i]`, and the cursor advances by twice the
section's story count. -/
def specSections (results : List String) (nKeys : Nat) :
    List (String × List Story) → Nat → Nat → List (String × List Story)
  | [], _, _ => []
  | (_, stories) :: rest, i, ri =>
    (results.getD i "", specStories results nKeys stories ri) ::
      specSections results nKeys rest (i + 1) (ri + 2 * stories.length)

theorem specStories_length (results : List String) (nKeys : Nat) :
    ∀ (stories : List Story) (ri : Nat),
      (specStories results nKeys stories ri).length = stories.length := by
  intro stories
  induction stories with
  | nil => intro ri; rfl
  | cons st rest ih => intro ri; simp [specStories, ih]

theorem specStories_getElem (results : List String) (nKeys : Nat) :
    ∀ (stories : List Story) (ri j : Nat) (st : Story),
      stories[j]? = some st →
      (specStories results nKeys stories ri)[j]? =
        some { st with
          title := some (results.getD (nKeys + ri + 2 * j) ""),
          abstract := some (results.getD (nKeys + ri + 2 * j + 1) "") } := by
  intro stories
  induction stories with
  | nil => intro ri j st h; simp at h
  | cons s rest ih =>
    intro ri j st h
    cases j with
    | zero =>
      rw [List.getElem?_cons_zero] at h
      cases h
      simp [specStories]
    | succ j2 =>
      rw [List.getElem?_cons_succ] at h
      rw [specStories, List.getElem?_cons_succ, ih (ri + 2) j2 st h]
      have e1 : nKeys + (ri + 2) + 2 * j2 = nKeys + ri + 2 * (j2 + 1) := by
        omega
      rw [e1]

theorem specSections_length (results : List String) (nKeys : Nat) :
    ∀ (sects : List (String × List Story)) (i ri : Nat),
      (specSections results nKeys sects i ri).length = sects.length := by
  intro sects
  induction sects with
  | nil => intro i ri; rfl
  | cons q rest ih =>
    intro i ri
    obtain ⟨k, stories⟩ := q
    simp [specSections, ih]

theorem specSections_getElem (results : List String) (nKeys : Nat) :
    ∀ (sects : List (String × List Story)) (i ri i0 : Nat)
      (p : String × List Story),
      sects[i0]? = some p →
      (specSections results nKeys sects i ri)[i0]? =
        some (results.getD (i + i0) "",
          specStories results nKeys p.2 (ri + 2 * storiesBefore sects i0)) := by
  intro sects
  induction sects with
  | nil => intro i ri i0 p h; simp at h
  | cons q rest ih =>
    intro i ri i0 p h
    obtain ⟨k, stories⟩ := q
    cases i0 with
    | zero =>
      rw [List.getElem?_cons_zero] at h
      cases h
      rw [specSections, List.getElem?_cons_zero, storiesBefore_zero]
      simp
    | succ i2 =>
      rw [List.getElem?_cons_succ] at h
      rw [specSections, List.getElem?_cons_succ, ih (i + 1)
        (ri + 2 * stories.length) i2 p h]
      have e1 : i + 1 + i2 = i + (i2 + 1) := by omega
      have e2 : ri + 2 * stories.length + 2 * storiesBefore rest i2 =
          ri + 2 * storiesBefore ((k, stories) :: rest) (i2 + 1) := by
        have e3 := storiesBefore_cons_succ (k, stories) rest i2
        simp only [] at e3
        omega
      rw [e1, e2]

theorem getD_of_lt (l : List String) (n : Nat) (h : n < l.length) :
    l.get? n = some (l.getD n "") := by
  rw [List.get?_eq_getElem?, List.getD_eq_getElem?_getD,
    List.getElem?_eq_getElem h]
  rfl

/-- The inner loop agrees with the spec-side description whenever every
index it will touch is in range, and its final cursor is the start
cursor plus twice the story count. -/
theorem reassembleStories_spec (results : List String) (nKeys : Nat) :
    ∀ (stories : List Story) (ri : Nat),
      nKeys + ri + 2 * stories.length ≤ results.length →
      reassembleStories results nKeys stories ri =
        some (specStories results nKeys stories ri,
          ri + 2 * stories.length) := by
  intro stories
  induction stories with
  | nil => intro ri _; simp [reassembleStories, specStories]
  | cons st rest ih =>
    intro ri h
    simp only [List.length_cons] at h
    simp only [reassembleStories]
    rw [getD_of_lt results (nKeys + ri) (by omega),
      getD_of_lt results (nKeys + ri + 1) (by omega)]
    simp only [Option.bind_eq_bind, Option.some_bind]
    rw [ih (ri + 2) (by omega)]
    simp only [Option.some_bind, specStories]
    have e : ri + 2 + 2 * rest.length = ri + 2 * (st :: rest).length := by
      simp only [List.length_cons]; omega
    rw [e]
    rfl


theorem dictFind_eq_none_iff {α : Type} (d : List (String × α))
    (k : String) :
    dictFind d k = none ↔ ∀ p ∈ d, p.1 ≠ k := by
  induction d with
  | nil => simp [dictFind]
  | cons p rest ih =>
    by_cases hp : p.1 = k
    · simp [dictFind, hp]
    · simp [dictFind, hp, ih]

theorem dictInsert_of_find_none {α : Type} (d : List (String × α))
    (k : String) (v : α) (h : dictFind d k = none) :
    dictInsert d k v = d ++ [(k, v)] := by
  unfold dictInsert
  rw [if_neg]
  intro hany
  rw [List.any_eq_true] at hany
  obtain ⟨p, hp, hpk⟩ := hany
  exact (dictFind_eq_none_iff d k).mp h p hp (by simpa using hpk)

/-- The outer loop agrees with the spec-side description: with every
index in range, the translated section titles pairwise distinct, and
none of them already a key of the accumulator, the loop extends the
accumulator by exactly the spec-side reassembly. -/
theorem reassembleAux_spec (results : List String) (nKeys : Nat) :
    ∀ (sects : List (String × List Story)) (i ri : Nat)
      (acc : List (String × List Story)),
      i + sects.length ≤ results.length →
      nKeys + ri + 2 * totalStories sects ≤ results.length →
      (∀ j1 j2, j1 < sects.length → j2 < sects.length → j1 ≠ j2 →
        results.getD (i + j1) "" ≠ results.getD (i + j2) "") →
      (∀ j, j < sects.length →
        dictFind acc (results.getD (i + j) "") = none) →
      reassembleAux results nKeys sects i ri acc =
        some (acc ++ specSections results nKeys sects i ri) := by
  intro sects
  induction sects with
  | nil =>
    intro i ri acc _ _ _ _
    simp [reassembleAux, specSections]
  | cons q rest ih =>
    intro i ri acc hkey hstory hdist hacc
    obtain ⟨k, stories⟩ := q
    have htot : totalStories ((k, stories) :: rest) =
        stories.length + totalStories rest := totalStories_cons (k, stories) rest
    have hlc : ((k, stories) :: rest).length = rest.length + 1 := rfl
    simp only [List.length_cons] at hkey
    simp only [reassembleAux]
    rw [getD_of_lt results i (by omega)]
    rw [reassembleStories_spec results nKeys stories ri (by omega)]
    simp only [Option.bind_eq_bind, Option.some_bind]
    have hfresh0 : dictFind acc (results.getD i "") = none := by
      have := hacc 0 (by omega)
      simpa using this
    rw [dictInsert_of_find_none acc (results.getD i "")
      (specStories results nKeys stories ri) hfresh0]
    rw [ih (i + 1) (ri + 2 * stories.length)
      (acc ++ [(results.getD i "", specStories results nKeys stories ri)])
      (by omega) (by omega) ?_ ?_]
    · rw [specSections]
      simp only [List.append_assoc, List.singleton_append]
    · intro j1 j2 h1 h2 hne
      have e1 : i + 1 + j1 = i + (j1 + 1) := by omega
      have e2 : i + 1 + j2 = i + (j2 + 1) := by omega
      rw [e1, e2]
      exact hdist (j1 + 1) (j2 + 1) (by omega) (by omega) (by omega)
    · intro j hj
      have e1 : i + 1 + j = i + (j + 1) := by omega
      rw [e1]
      have hne : results.getD i "" ≠ results.getD (i + (j + 1)) "" := by
        have := hdist 0 (j + 1) (by omega) (by omega) (by omega)
        simpa using this
      rw [dictFind_append_single _ _ _ hne]
      have := hacc (j + 1) (by omega)
      exact this


theorem reassembleStories_some_cursor (results : List String) (nKeys : Nat) :
    ∀ (stories : List Story) (ri : Nat) (out : List Story × Nat),
      reassembleStories results nKeys stories ri = some out →
      out.2 = ri + 2 * stories.length := by
  intro stories
  induction stories with
  | nil =>
    intro ri out h
    simp only [reassembleStories] at h
    cases h
    simp
  | cons st rest ih =>
    intro ri out h
    simp only [reassembleStories, Option.bind_eq_bind] at h
    rcases hg1 : results.get? (nKeys + ri) with _ | t
    · rw [hg1] at h; simp at h
    rw [hg1] at h
    simp only [Option.some_bind] at h
    rcases hg2 : results.get? (nKeys + ri + 1) with _ | a
    · rw [hg2] at h; simp at h
    rw [hg2] at h
    simp only [Option.some_bind] at h
    rcases hg3 : reassembleStories results nKeys rest (ri + 2) with _ | pr
    · rw [hg3] at h; simp at h
    rw [hg3] at h
    simp only [Option.some_bind] at h
    cases h
    have := ih (ri + 2) pr hg3
    simp only [List.length_cons]
    omega

theorem reassembleStories_some_range (results : List String) (nKeys : Nat) :
    ∀ (stories : List Story) (ri : Nat) (out : List Story × Nat),
      reassembleStories results nKeys stories ri = some out →
      stories ≠ [] →
      nKeys + ri + 2 * stories.length ≤ results.length := by
  intro stories
  induction stories with
  | nil => intro ri out _ hne; exact absurd rfl hne
  | cons st rest ih =>
    intro ri out h _
    simp only [reassembleStories, Option.bind_eq_bind] at h
    rcases hg1 : results.get? (nKeys + ri) with _ | t
    · rw [hg1] at h; simp at h
    rw [hg1] at h
    simp only [Option.some_bind] at h
    rcases hg2 : results.get? (nKeys + ri + 1) with _ | a
    · rw [hg2] at h; simp at h
    rw [hg2] at h
    simp only [Option.some_bind] at h
    have hlt : nKeys + ri + 1 < results.length := by
      rw [List.get?_eq_getElem?] at hg2
      exact (List.getElem?_eq_some.mp hg2).1
    by_cases hrest : rest = []
    · subst hrest
      simp only [List.length_cons, List.length_nil]
      omega
    · rcases hg3 : reassembleStories results nKeys rest (ri + 2) with _ | pr
      · rw [hg3] at h; simp at h
      have hr := ih (ri + 2) pr hg3 hrest
      simp only [List.length_cons] at hr ⊢
      omega

theorem reassembleAux_some_range (results : List String) (nKeys : Nat) :
    ∀ (sects : List (String × List Story)) (i ri : Nat)
      (acc out : List (String × List Story)),
      reassembleAux results nKeys sects i ri acc = some out →
      (sects ≠ [] → i + sects.length ≤ results.length) ∧
        (0 < totalStories sects →
          nKeys + ri + 2 * totalStories sects ≤ results.length) := by
  intro sects
  induction sects with
  | nil =>
    intro i ri acc out _
    constructor
    · intro hne
      exact absurd rfl hne
    · intro hpos
      exact absurd hpos (by simp [totalStories])
  | cons q rest ih =>
    intro i ri acc out h
    obtain ⟨k, stories⟩ := q
    have htot : totalStories ((k, stories) :: rest) =
        stories.length + totalStories rest := totalStories_cons (k, stories) rest
    simp only [reassembleAux, Option.bind_eq_bind] at h
    rcases hg1 : results.get? i with _ | tst
    · rw [hg1] at h; simp at h
    rw [hg1] at h
    simp only [Option.some_bind] at h
    have hi : i < results.length := by
      rw [List.get?_eq_getElem?] at hg1
      exact (List.getElem?_eq_some.mp hg1).1
    rcases hg2 : reassembleStories results nKeys stories ri with _ | pr
    · rw [hg2] at h; simp at h
    rw [hg2] at h
    simp only [Option.some_bind] at h
    obtain ⟨tlist, ri2⟩ := pr
    have hcur : ri2 = ri + 2 * stories.length :=
      reassembleStories_some_cursor results nKeys stories ri (tlist, ri2) hg2
    have hrec := ih (i + 1) ri2 (dictInsert acc tst tlist) out h
    constructor
    · intro _
      simp only [List.length_cons]
      by_cases hrest : rest = []
      · subst hrest
        simp only [List.length_nil]
        omega
      · have := hrec.1 hrest
        omega
    · intro hpos
      rw [htot] at hpos ⊢
      cases Nat.eq_zero_or_pos stories.length with
      | inl hz =>
        have hrpos : 0 < totalStories rest := by omega
        have := hrec.2 hrpos
        omega
      | inr hs =>
        have hne : stories ≠ [] := by
          intro hco
          rw [hco] at hs
          simp at hs
        have hrange :=
          reassembleStories_some_range results nKeys stories ri (tlist, ri2)
            hg2 hne
        cases Nat.eq_zero_or_pos (totalStories rest) with
        | inl hz => omega
        | inr hrpos =>
          have := hrec.2 hrpos
          omega


theorem flattenBatch_empty (d : List (String × List Story)) :
    (flattenBatch d).isEmpty = true ↔ d = [] := by
  cases d with
  | nil => simp [flattenBatch]
  | cons p rest => simp [flattenBatch]

/-! ## Claim C1: layout of the flattened batch -/

/-- Counterexample to C1: the code never places a main title in the
batch — `translate_structured_stories` does not even receive one.  For
one section with one story the batch is `["World News", "A", "B"]` of
length 3 = `N + 2*sum`, not the claimed `1 + N + 2*sum = 4`. -/
theorem flatten_no_main_title_counterexample :
    flattenBatch [("world_news", [exStory])] = ["World News", "A", "B"] ∧
    (flattenBatch [("world_news", [exStory])]).length ≠ 1 + 1 + 2 * 1 := by
  constructor
  · decide
  · decide

/-- Claim C1 amended: the flattening step produces one humanized section
key (underscores to spaces, slash to " & ", title-cased) per section in
mapping order, then for each section in the same order and each story in
order the two consecutive items title, abstract — with no main-title
item, so the batch length is `N + 2 * sum(c_i)`. -/
theorem flatten_batch_layout (d : List (String × List Story)) :
    (flattenBatch d).length = d.length + 2 * totalStories d ∧
    (∀ (i : Nat) (p : String × List Story), d[i]? = some p →
      (flattenBatch d)[i]? = some (humanize p.1)) ∧
    (∀ (i : Nat) (p : String × List Story) (j : Nat) (st : Story),
      d[i]? = some p → p.2[j]? = some st →
      (flattenBatch d)[d.length + 2 * storiesBefore d i + 2 * j]? =
          some (st.title.getD "") ∧
        (flattenBatch d)[d.length + 2 * storiesBefore d i + 2 * j + 1]? =
          some (st.abstract.getD "")) := by
  refine ⟨length_flattenBatch d, ?_, ?_⟩
  · intro i p h
    exact flattenBatch_key d i p h
  · intro i p j st hd hs
    exact flattenBatch_story d i p j st hd hs

/-- Witness for C1 (amended): the one-section, one-story digest. -/
theorem flatten_batch_layout_witness :
    (flattenBatch [("world_news", [exStory])])[0]? =
        some (humanize "world_news") ∧
    (flattenBatch [("world_news", [exStory])])[1 +
        2 * storiesBefore [("world_news", [exStory])] 0 + 2 * 0]? =
      some (exStory.title.getD "") := by
  have h := flatten_batch_layout [("world_news", [exStory])]
  exact ⟨h.2.1 0 ("world_news", [exStory]) rfl,
    (h.2.2 0 ("world_news", [exStory]) 0 exStory rfl rfl).1⟩

/-! ## Claim C3: responses of the wrong length -/

/-- Counterexample to C3: a response *longer* than the request (here by
one item) is not detected — reassembly silently succeeds using the
initial items and ignores the excess, so a length difference does not
always raise a fatal error. -/
theorem length_mismatch_counterexample :
    translate_structured_stories (fun l => l ++ ["EXTRA"])
        [("world_news", [exStory])] =
      some [("World News", [exStory])] ∧
    ((fun l => l ++ ["EXTRA"])
        (flattenBatch [("world_news", [exStory])])).length ≠
      (flattenBatch [("world_news", [exStory])]).length := by
  constructor
  · decide
  · decide

/-- Claim C3 amended: a response *shorter* than the request makes the
Indexer raise (an index-out-of-range error) with no partial or garbled
mapping returned; a longer response is accepted silently. -/
theorem short_response_is_fatal (translator : List String → List String)
    (d : List (String × List Story))
    (h : (translator (flattenBatch d)).length < (flattenBatch d).length) :
    translate_structured_stories translator d = none := by
  unfold translate_structured_stories
  by_cases hemp : (flattenBatch d).isEmpty
  · exfalso
    have hd : d = [] := (flattenBatch_empty d).mp hemp
    rw [hd] at h
    simp [flattenBatch] at h
  · rw [if_neg hemp]
    rcases hres : reassembleAux (translator (flattenBatch d)) d.length d 0 0 []
      with _ | out
    · rfl
    · exfalso
      have hr := reassembleAux_some_range (translator (flattenBatch d))
        d.length d 0 0 [] out hres
      have hd : d ≠ [] := by
        intro hco
        apply hemp
        rw [hco]
        rfl
      have hkey := hr.1 hd
      have hlen := length_flattenBatch d
      cases Nat.eq_zero_or_pos (totalStories d) with
      | inl hz => omega
      | inr hpos =>
        have := hr.2 hpos
        omega

/-- Witness for C3 (amended): a response one item shorter than the
three-item request yields the error outcome. -/
theorem short_response_is_fatal_witness :
    translate_structured_stories (fun l => l.drop 1)
      [("world_news", [exStory])] = none :=
  short_response_is_fatal (fun l => l.drop 1) [("world_news", [exStory])]
    (by decide)


/-! ## Claim C2: reassembly offsets -/

/-- Counterexample to C2: section 0's translated title is taken from
`response[0]`, not `response[1 + 0]`, and the story cursor starts at
`N = 1`, not `1 + N = 2` — with the four-item response `R0..R3` (the
length the claim calls expected) the output keys section 0 by `"R0"`
and rebuilds its story from `R1`/`R2`. -/
theorem reassembly_offsets_counterexample :
    reassembleAux ["R0", "R1", "R2", "R3"] 1
        [("world_news", [exStory])] 0 0 [] =
      some [("R0",
        [{ exStory with title := some "R1", abstract := some "R2" }])] ∧
    ("R0" : String) ≠ "R1" := by
  constructor
  · decide
  · decide

/-- Claim C2 amended: for a response of the code's expected length
`N + 2*sum(c_i)` whose first `N` entries are pairwise distinct,
reassembly succeeds; the translated title of section `i` (0-based) is
`response[i]` (not `response[1 + i]`), and the running story cursor
starts at `N` (not `1 + N`), consuming two consecutive entries per story
in section order then story order and advancing by 2 per story. -/
theorem reassembly_index_arithmetic (d : List (String × List Story))
    (results : List String)
    (hlen : results.length = d.length + 2 * totalStories d)
    (hdist : ∀ j1 j2, j1 < d.length → j2 < d.length → j1 ≠ j2 →
      results.getD j1 "" ≠ results.getD j2 "") :
    ∃ out, reassembleAux results d.length d 0 0 [] = some out ∧
      out.length = d.length ∧
      ∀ (i : Nat) (p : String × List Story), d[i]? = some p →
        ∃ block, out[i]? = some (results.getD i "", block) ∧
          block.length = p.2.length ∧
          ∀ (j : Nat) (st : Story), p.2[j]? = some st →
            block[j]? = some { st with
              title := some (results.getD
                (d.length + 2 * storiesBefore d i + 2 * j) ""),
              abstract := some (results.getD
                (d.length + 2 * storiesBefore d i + 2 * j + 1) "") } := by
  have hmain := reassembleAux_spec results d.length d 0 0 []
    (by omega) (by omega)
    (by
      intro j1 j2 h1 h2 hne
      rw [Nat.zero_add, Nat.zero_add]
      exact hdist j1 j2 h1 h2 hne)
    (by
      intro j _
      rfl)
  refine ⟨specSections results d.length d 0 0, by simpa using hmain,
    specSections_length results d.length d 0 0, ?_⟩
  intro i p hp
  have hsec := specSections_getElem results d.length d 0 0 i p hp
  simp only [Nat.zero_add] at hsec
  refine ⟨specStories results d.length p.2 (2 * storiesBefore d i), hsec,
    specStories_length results d.length p.2 (2 * storiesBefore d i), ?_⟩
  intro j st hst
  exact specStories_getElem results d.length p.2 (2 * storiesBefore d i)
    j st hst

/-- Witness for C2 (amended): two sections with one story each and a
six-item response with distinct title entries. -/
theorem reassembly_index_arithmetic_witness :
    (reassembleAux ["T0", "T1", "a1", "b1", "a2", "b2"] 2
      [("world_news", [exStory]), ("arts", [exStory2])] 0 0 []).isSome =
      true := by
  obtain ⟨out, hout, -, -⟩ := reassembly_index_arithmetic
    [("world_news", [exStory]), ("arts", [exStory2])]
    ["T0", "T1", "a1", "b1", "a2", "b2"] (by decide)
    (by
      intro j1 j2 h1 h2 hne
      simp only [List.length_cons, List.length_nil] at h1 h2
      interval_cases j1 <;> interval_cases j2 <;> first | omega | decide)
  rw [show (2 : Nat) =
    [("world_news", [exStory]), ("arts", [exStory2])].length from rfl]
  rw [hout]
  rfl


/-! ## Claim C4: the identity-translation round trip -/

theorem story_update_self (st : Story) (ht : st.title.isSome = true)
    (ha : st.abstract.isSome = true) :
    { st with title := some (st.title.getD ""),
              abstract := some (st.abstract.getD "") } = st := by
  cases st with
  | mk ot oa u b =>
    obtain ⟨t, htt⟩ := Option.isSome_iff_exists.mp ht
    obtain ⟨a, haa⟩ := Option.isSome_iff_exists.mp ha
    simp only [] at htt haa
    subst htt
    subst haa
    rfl

theorem specStories_eq_self (results : List String) (nKeys : Nat) :
    ∀ (stories : List Story) (ri : Nat),
      (∀ (j : Nat) (st : Story), stories[j]? = some st →
        results.getD (nKeys + ri + 2 * j) "" = st.title.getD "" ∧
          results.getD (nKeys + ri + 2 * j + 1) "" = st.abstract.getD "") →
      (∀ st ∈ stories, st.title.isSome ∧ st.abstract.isSome) →
      specStories results nKeys stories ri = stories := by
  intro stories
  induction stories with
  | nil => intro ri _ _; rfl
  | cons st rest ih =>
    intro ri hacc hsome
    rw [specStories]
    have h0 := hacc 0 st (by simp)
    have e0 : nKeys + ri + 2 * 0 = nKeys + ri := by omega
    have e1 : nKeys + ri + 2 * 0 + 1 = nKeys + ri + 1 := by omega
    rw [e0, e1] at h0
    have hs := hsome st (List.mem_cons_self st rest)
    congr 1
    · rw [h0.1, h0.2]
      exact story_update_self st hs.1 hs.2
    · apply ih (ri + 2)
      · intro j st2 hst2
        have hrec := hacc (j + 1) st2 (by simpa using hst2)
        have e2 : nKeys + ri + 2 * (j + 1) = nKeys + (ri + 2) + 2 * j := by
          omega
        rw [e2] at hrec
        exact hrec
      · intro st2 hst2
        exact hsome st2 (List.mem_cons_of_mem st hst2)

theorem specSections_eq_self (results : List String) (nKeys : Nat) :
    ∀ (sects : List (String × List Story)) (i ri : Nat),
      (∀ (i0 : Nat) (p : String × List Story), sects[i0]? = some p →
        results.getD (i + i0) "" = humanize p.1) →
      (∀ (i0 : Nat) (p : String × List Story), sects[i0]? = some p →
        ∀ (j : Nat) (st : Story), p.2[j]? = some st →
          results.getD
              (nKeys + ri + 2 * storiesBefore sects i0 + 2 * j) "" =
            st.title.getD "" ∧
          results.getD
              (nKeys + ri + 2 * storiesBefore sects i0 + 2 * j + 1) "" =
            st.abstract.getD "") →
      (∀ p ∈ sects, ∀ st ∈ p.2, st.title.isSome ∧ st.abstract.isSome) →
      specSections results nKeys sects i ri =
        sects.map (fun p => (humanize p.1, p.2)) := by
  intro sects
  induction sects with
  | nil => intro i ri _ _ _; rfl
  | cons q rest ih =>
    intro i ri hkey hstory hsome
    obtain ⟨k, stories⟩ := q
    rw [specSections, List.map_cons]
    congr 1
    · have hk := hkey 0 (k, stories) (by simp)
      rw [Nat.add_zero] at hk
      rw [hk]
      have hst : specStories results nKeys stories ri = stories := by
        apply specStories_eq_self results nKeys stories ri
        · intro j st hjst
          have hrec := hstory 0 (k, stories) (by simp) j st hjst
          rw [storiesBefore_zero] at hrec
          have e2 : nKeys + ri + 2 * 0 + 2 * j = nKeys + ri + 2 * j := by
            omega
          rw [e2] at hrec
          exact hrec
        · intro st hst
          exact hsome (k, stories) (by simp) st hst
      rw [hst]
    · apply ih (i + 1) (ri + 2 * stories.length)
      · intro i0 p hp
        have hrec := hkey (i0 + 1) p (by simpa using hp)
        have e : i + (i0 + 1) = i + 1 + i0 := by omega
        rw [e] at hrec
        exact hrec
      · intro i0 p hp j st hjst
        have hrec := hstory (i0 + 1) p (by simpa using hp) j st hjst
        have hsb : storiesBefore ((k, stories) :: rest) (i0 + 1) =
            stories.length + storiesBefore rest i0 :=
          storiesBefore_cons_succ (k, stories) rest i0
        rw [hsb] at hrec
        have e2 : nKeys + ri + 2 * (stories.length + storiesBefore rest i0) +
            2 * j = nKeys + (ri + 2 * stories.length) +
              2 * storiesBefore rest i0 + 2 * j := by omega
        rw [e2] at hrec
        exact hrec
      · intro p hp st hst
        exact hsome p (List.mem_cons_of_mem (k, stories) hp) st hst


theorem flattenBatch_getD_key (d : List (String × List Story)) (i : Nat)
    (p : String × List Story) (hp : d[i]? = some p) :
    (flattenBatch d).getD i "" = humanize p.1 := by
  rw [List.getD_eq_getElem?_getD, flattenBatch_key d i p hp]
  rfl

/-- Counterexample to C4: the identity round trip does not return the
section key unchanged — the key `"world_news"` comes back as its
humanized display form `"World News"`. -/
theorem identity_roundtrip_counterexample :
    translate_structured_stories (fun l => l) [("world_news", [exStory])] =
      some [("World News", [exStory])] ∧
    ("World News" : String) ≠ "world_news" := by
  constructor
  · decide
  · decide

/-- Claim C4 amended: for every non-empty digest whose humanized section
keys are pairwise distinct and whose stories all carry a title and an
abstract, flattening followed by reassembly under the identity
translation returns every story title, abstract and passthrough field
unchanged and preserves section order and story order exactly — but
each section key is replaced by its humanized form, not returned
unchanged. -/
theorem identity_roundtrip (d : List (String × List Story))
    (hne : d ≠ [])
    (hnodup : (d.map (fun p => humanize p.1)).Nodup)
    (hfields : ∀ p ∈ d, ∀ st ∈ p.2, st.title.isSome ∧ st.abstract.isSome) :
    translate_structured_stories (fun l => l) d =
      some (d.map (fun p => (humanize p.1, p.2))) := by
  unfold translate_structured_stories
  rw [if_neg (fun hco => hne ((flattenBatch_empty d).mp hco))]
  have hlen := length_flattenBatch d
  have hdistinct : ∀ j1 j2, j1 < d.length → j2 < d.length → j1 ≠ j2 →
      (flattenBatch d).getD (0 + j1) "" ≠ (flattenBatch d).getD (0 + j2) "" := by
    intro j1 j2 h1 h2 hne12 hco
    rw [Nat.zero_add, Nat.zero_add] at hco
    have hp1 : d[j1]? = some d[j1] := List.getElem?_eq_getElem h1
    have hp2 : d[j2]? = some d[j2] := List.getElem?_eq_getElem h2
    have hk1 := flattenBatch_getD_key d j1 d[j1] hp1
    have hk2 := flattenBatch_getD_key d j2 d[j2] hp2
    rw [hk1, hk2] at hco
    apply hne12
    have hinj : (d.map (fun p => humanize p.1))[j1]? =
        (d.map (fun p => humanize p.1))[j2]? := by
      rw [List.getElem?_map, List.getElem?_map, hp1, hp2]
      simpa using hco
    exact List.getElem?_inj (by simpa using h1) hnodup hinj
  rw [reassembleAux_spec (flattenBatch d) d.length d 0 0 []
    (by omega) (by omega) hdistinct (fun j _ => rfl)]
  rw [List.nil_append]
  rw [specSections_eq_self (flattenBatch d) d.length d 0 0
    (by
      intro i0 p hp
      rw [Nat.zero_add]
      exact flattenBatch_getD_key d i0 p hp)
    (by
      intro i0 p hp j st hjst
      have hstory := flattenBatch_story d i0 p j st hp hjst
      have e2 : d.length + 0 + 2 * storiesBefore d i0 + 2 * j =
          d.length + 2 * storiesBefore d i0 + 2 * j := by omega
      rw [e2]
      constructor
      · rw [List.getD_eq_getElem?_getD, hstory.1]
        rfl
      · rw [List.getD_eq_getElem?_getD, hstory.2]
        rfl)
    hfields]

/-- Witness for C4 (amended): two sections round-trip to their humanized
keys with stories untouched. -/
theorem identity_roundtrip_witness :
    translate_structured_stories (fun l => l)
      [("world_news", [exStory]), ("arts", [exStory2])] =
      some [("World News", [exStory]), ("Arts", [exStory2])] := by
  rw [identity_roundtrip [("world_news", [exStory]), ("arts", [exStory2])]
    (by decide) (by decide) (by decide)]
  decide


/-! ## Claim C10: colliding translated section titles -/

theorem keys_map_overwrite {α : Type} (k : String) (v : α) :
    ∀ d : List (String × α),
      (d.map (fun p => if p.1 = k then (k, v) else p)).map Prod.fst =
        d.map Prod.fst := by
  intro d
  induction d with
  | nil => rfl
  | cons p rest ih =>
    by_cases hp : p.1 = k
    · simp [hp, ih]
    · simp [hp, ih]

theorem dictInsert_keys {α : Type} (d : List (String × α)) (k : String)
    (v : α) (hnd : (d.map Prod.fst).Nodup) :
    ((dictInsert d k v).map Prod.fst).Nodup ∧
    ∀ x ∈ (dictInsert d k v).map Prod.fst, x ∈ d.map Prod.fst ∨ x = k := by
  by_cases h : d.any (fun p => p.1 = k)
  · rw [dictInsert, if_pos h, keys_map_overwrite]
    exact ⟨hnd, fun x hx => Or.inl hx⟩
  · rw [dictInsert, if_neg h]
    have hnotin : k ∉ d.map Prod.fst := by
      intro hk
      apply h
      rw [List.any_eq_true]
      obtain ⟨p, hp, hpk⟩ := List.mem_map.mp hk
      exact ⟨p, hp, by simp [hpk]⟩
    constructor
    · rw [List.map_append]
      exact List.Nodup.append hnd (by simp) (by
        intro x hx hx2
        simp at hx2
        rw [hx2] at hx
        exact hnotin hx)
    · intro x hx
      rw [List.map_append, List.mem_append] at hx
      cases hx with
      | inl hx => exact Or.inl hx
      | inr hx => exact Or.inr (by simpa using hx)

theorem reassembleAux_keys (results : List String) (nKeys : Nat) :
    ∀ (sects : List (String × List Story)) (i ri : Nat)
      (acc out : List (String × List Story)),
      reassembleAux results nKeys sects i ri acc = some out →
      i + sects.length ≤ nKeys →
      (acc.map Prod.fst).Nodup →
      (∀ x ∈ acc.map Prod.fst, x ∈ results.take nKeys) →
      (out.map Prod.fst).Nodup ∧
        ∀ x ∈ out.map Prod.fst, x ∈ results.take nKeys := by
  intro sects
  induction sects with
  | nil =>
    intro i ri acc out h _ hnd hmem
    simp only [reassembleAux] at h
    cases h
    exact ⟨hnd, hmem⟩
  | cons q rest ih =>
    intro i ri acc out h hbound hnd hmem
    obtain ⟨k, stories⟩ := q
    simp only [reassembleAux, Option.bind_eq_bind] at h
    rcases hg1 : results.get? i with _ | tst
    · rw [hg1] at h; simp at h
    rw [hg1] at h
    simp only [Option.some_bind] at h
    rcases hg2 : reassembleStories results nKeys stories ri with _ | pr
    · rw [hg2] at h; simp at h
    rw [hg2] at h
    simp only [Option.some_bind] at h
    obtain ⟨tlist, ri2⟩ := pr
    simp only [List.length_cons] at hbound
    have hi : i < nKeys := by omega
    have htst : tst ∈ results.take nKeys := by
      have hmem2 : (results.take nKeys)[i]? = some tst := by
        rw [List.getElem?_take, if_pos hi, ← List.get?_eq_getElem?]
        exact hg1
      exact List.getElem?_mem hmem2
    have hins := dictInsert_keys acc tst tlist hnd
    apply ih (i + 1) ri2 (dictInsert acc tst tlist) out h (by omega) hins.1
    intro x hx
    cases hins.2 x hx with
    | inl hx2 => exact hmem x hx2
    | inr hx2 => rw [hx2]; exact htst

theorem reassembleAux_some_of_range (results : List String) (nKeys : Nat) :
    ∀ (sects : List (String × List Story)) (i ri : Nat)
      (acc : List (String × List Story)),
      i + sects.length ≤ results.length →
      nKeys + ri + 2 * totalStories sects ≤ results.length →
      ∃ out, reassembleAux results nKeys sects i ri acc = some out := by
  intro sects
  induction sects with
  | nil =>
    intro i ri acc _ _
    exact ⟨acc, rfl⟩
  | cons q rest ih =>
    intro i ri acc hkey hstory
    obtain ⟨k, stories⟩ := q
    have htot : totalStories ((k, stories) :: rest) =
        stories.length + totalStories rest := totalStories_cons (k, stories) rest
    simp only [List.length_cons] at hkey
    simp only [reassembleAux]
    rw [getD_of_lt results i (by omega)]
    rw [reassembleStories_spec results nKeys stories ri (by omega)]
    simp only [Option.bind_eq_bind, Option.some_bind]
    exact ih (i + 1) (ri + 2 * stories.length) _ (by omega) (by omega)

theorem dedup_length_lt_of_not_nodup (l : List String) (h : ¬l.Nodup) :
    l.dedup.length < l.length := by
  have hsub := List.dedup_sublist l
  have hle := hsub.length_le
  cases Nat.lt_or_ge l.dedup.length l.length with
  | inl hlt => exact hlt
  | inr hge =>
    exfalso
    have heq : l.dedup.length = l.length := by omega
    have hdl := hsub.eq_of_length heq
    apply h
    rw [← hdl]
    exact List.nodup_dedup l


/-- Claim C10: the Indexer keys its output by translated section title.
Part 1: concretely, when a constant translator gives two distinct input
sections the same translated title `"X"`, the later section's (rebuilt)
story list overwrites the earlier one's under that key and the output
has one entry instead of two.  Part 2: when the translated titles are
pairwise distinct (and the response has the expected length), the output
has exactly one section per input section, keyed by `response[i]` in
input order.  Part 3: whenever two translated titles coincide, the
output mapping has strictly fewer sections than the input. -/
theorem translated_title_collision :
    (translate_structured_stories (fun l => l.map (fun _ => "X"))
        [("world", [exStory]), ("arts", [exStory2])] =
      some [("X",
        [{ exStory2 with title := some "X", abstract := some "X" }])]) ∧
    (∀ (d : List (String × List Story))
        (translator : List String → List String),
      (translator (flattenBatch d)).length = (flattenBatch d).length →
      (∀ j1 j2, j1 < d.length → j2 < d.length → j1 ≠ j2 →
        (translator (flattenBatch d)).getD j1 "" ≠
          (translator (flattenBatch d)).getD j2 "") →
      d ≠ [] →
      ∃ out, translate_structured_stories translator d = some out ∧
        out.length = d.length ∧
        ∀ (i : Nat) (p : String × List Story), d[i]? = some p →
          ∃ block, out[i]? =
            some ((translator (flattenBatch d)).getD i "", block)) ∧
    (∀ (d : List (String × List Story))
        (translator : List String → List String),
      (translator (flattenBatch d)).length = (flattenBatch d).length →
      (∃ j1 j2, j1 < j2 ∧ j2 < d.length ∧
        (translator (flattenBatch d)).getD j1 "" =
          (translator (flattenBatch d)).getD j2 "") →
      ∃ out, translate_structured_stories translator d = some out ∧
        out.length < d.length) := by
  refine ⟨by decide, ?_, ?_⟩
  · intro d translator hlen hdist hne
    have hflen := length_flattenBatch d
    unfold translate_structured_stories
    rw [if_neg (fun hco => hne ((flattenBatch_empty d).mp hco))]
    rw [reassembleAux_spec (translator (flattenBatch d)) d.length d 0 0 []
      (by omega) (by omega)
      (by
        intro j1 j2 h1 h2 hne12
        rw [Nat.zero_add, Nat.zero_add]
        exact hdist j1 j2 h1 h2 hne12)
      (fun j _ => rfl)]
    rw [List.nil_append]
    refine ⟨specSections (translator (flattenBatch d)) d.length d 0 0, rfl,
      specSections_length (translator (flattenBatch d)) d.length d 0 0, ?_⟩
    intro i p hp
    have hsec := specSections_getElem (translator (flattenBatch d)) d.length
      d 0 0 i p hp
    simp only [Nat.zero_add] at hsec
    exact ⟨specStories (translator (flattenBatch d)) d.length p.2
      (2 * storiesBefore d i), hsec⟩
  · intro d translator hlen hcol
    obtain ⟨j1, j2, hj12, hj2, heq⟩ := hcol
    have hflen := length_flattenBatch d
    have hne : d ≠ [] := by
      intro hco
      rw [hco] at hj2
      simp at hj2
    unfold translate_structured_stories
    rw [if_neg (fun hco => hne ((flattenBatch_empty d).mp hco))]
    obtain ⟨out, hout⟩ := reassembleAux_some_of_range
      (translator (flattenBatch d)) d.length d 0 0 [] (by omega) (by omega)
    refine ⟨out, hout, ?_⟩
    have hkeys := reassembleAux_keys (translator (flattenBatch d)) d.length
      d 0 0 [] out hout (by omega) (by simp) (by simp)
    have hsub : out.map Prod.fst ⊆
        ((translator (flattenBatch d)).take d.length).dedup := by
      intro x hx
      exact List.mem_dedup.mpr (hkeys.2 x hx)
    have hle := (hkeys.1.subperm hsub).length_le
    have htl : ((translator (flattenBatch d)).take d.length).length =
        d.length := by
      rw [List.length_take]
      omega
    have hnotnodup : ¬((translator (flattenBatch d)).take d.length).Nodup := by
      intro hnd
      have h1 : j1 < ((translator (flattenBatch d)).take d.length).length := by
        omega
      apply absurd (List.getElem?_inj h1 hnd ?_) (by omega : j1 ≠ j2)
      rw [List.getElem?_take, List.getElem?_take, if_pos (by omega),
        if_pos (by omega), ← List.get?_eq_getElem?, ← List.get?_eq_getElem?,
        getD_of_lt (translator (flattenBatch d)) j1 (by omega),
        getD_of_lt (translator (flattenBatch d)) j2 (by omega), heq]
    have hded := dedup_length_lt_of_not_nodup _ hnotnodup
    have hml : (out.map Prod.fst).length = out.length := List.length_map out _
    omega

/-- Witness for C10: two sections whose translated titles collide
produce a one-section output. -/
theorem translated_title_collision_witness :
    ∃ out, translate_structured_stories (fun l => l.map (fun _ => "X"))
        [("world", [exStory]), ("arts", [exStory2])] = some out ∧
      out.length < 2 := by
  obtain ⟨out, hout, hlt⟩ := translated_title_collision.2.2
    [("world", [exStory]), ("arts", [exStory2])]
    (fun l => l.map (fun _ => "X")) (by decide)
    ⟨0, 1, by omega, by decide, by decide⟩
  exact ⟨out, hout, by simpa using hlt⟩

